import Mathlib

/-!
Shallow embedding of `uapi-config` (`src/lib.rs`), a Rust implementation of the
UAPI configuration-files discovery convention, together with proofs of the
claims about it.

Modelling conventions:

* Paths handed to the filesystem (`find_main_file`, `find_dropins`, the three
  `find_files` shapes) are byte strings, `Bytes := List Nat`, matching the
  `Vec<u8>` view (`OsStrExt::as_bytes`) the source itself uses for its raw
  path construction and suffix tests.
* Path validation (`validate_path`), `chroot`, `push` and
  `with_user_directory` operate on Rust `Path::components()` output, embedded
  as `CPath := List Component` (the `Prefix` variant is Windows-only and the
  source marks it `unreachable!`, so it is not modelled).
* The filesystem is an abstract record `FS` supplying `File::open` (its
  success value is dropped because the handle itself carries no data the
  algorithm inspects: a returned "file" is identified by its path),
  `File::metadata().file_type().is_file()`, and `fs::read_dir` (whose
  per-entry iterator items are fallible, as in Rust).
* `find_dropins` is instrumented with a ghost trace accumulating every path
  at which `File::open` is invoked; the trace changes no control flow and
  exists to state the "a shadowed drop-in entry is never even opened"
  property.  The untraced functions are the first projections.
* The `BTreeMap<Vec<u8>, _>` is embedded as an association list kept sorted
  by strict lexicographic byte order (`bytesLt`), with `insert` placing the
  key at its ordered position — the map semantics the source relies on.
-/

/-- Byte strings: the `Vec<u8>` / `OsStr::as_bytes` view of paths and names. -/
abbrev Bytes := List Nat

/-- An I/O error; the source only ever inspects whether
`err.kind() == io::ErrorKind::NotFound`, so every other kind is collapsed
into `other` with a code distinguishing concrete errors. -/
inductive IoError
  | notFound
  | other (code : Nat)
deriving DecidableEq, Repr

/-- `err.kind() == io::ErrorKind::NotFound`. -/
def IoError.isNotFound : IoError → Bool
  | .notFound => true
  | .other _ => false

/-- The abstract filesystem the discovery runs against.
`openFile p` is `File::open(p)` (the handle is identified with `p`);
`isFile p` is `file.metadata()?.file_type().is_file()` on that handle;
`readDir p` is `fs::read_dir(p)`, yielding a list of fallible directory
entries (each item mirrors the `entry?` in the source's loop), where a
successful entry is its file name. -/
structure FS where
  openFile : Bytes → Except IoError Unit
  isFile : Bytes → Except IoError Bool
  readDir : Bytes → Except IoError (List (Except IoError Bytes))

/-- The byte `'/'`. -/
def slashByte : Nat := 47

/-- The bytes `".d"`. -/
def dotD : Bytes := [46, 100]

/-- `Path::join` / `PathBuf::push` on Unix, at the byte level: an absolute
right operand replaces the left; otherwise the two are concatenated with a
single separator inserted when the left is non-empty and does not already
end in one. -/
def pathJoin (p q : Bytes) : Bytes :=
  if q.head? = some slashByte then q
  else if p = [] then q
  else if p.getLast? = some slashByte then p ++ q
  else p ++ [slashByte] ++ q

/-- Strict lexicographic order on byte strings: the `Ord` of `Vec<u8>` that
`BTreeMap<Vec<u8>, _>` sorts its keys by. -/
def bytesLt : Bytes → Bytes → Bool
  | _, [] => false
  | [], _ :: _ => true
  | a :: as, b :: bs => if a < b then true else if b < a then false else bytesLt as bs

/-- The `BTreeMap<Vec<u8>, (PathBuf, File)>` of `find_dropins`, as an
association list sorted by `bytesLt` on the keys; the value records the
path of the opened file (the `File` handle is identified by that path). -/
abbrev DropinMap := List (Bytes × Bytes)

/-- `BTreeMap::contains_key`. -/
def mapContains (m : DropinMap) (k : Bytes) : Bool :=
  m.any (fun e => e.1 = k)

/-- `BTreeMap::get`, used to reason about which directory's copy of a name
the map holds. -/
def mapLookup (m : DropinMap) (k : Bytes) : Option Bytes :=
  match m.find? (fun e => e.1 = k) with
  | some e => some e.2
  | none => none

/-- `BTreeMap::insert`: place the key at its ordered position, replacing an
equal key's value. -/
def mapInsert (k v : Bytes) : DropinMap → DropinMap
  | [] => [(k, v)]
  | (k', v') :: rest =>
    if bytesLt k k' then (k, v) :: (k', v') :: rest
    else if k = k' then (k, v) :: rest
    else (k', v') :: mapInsert k v rest

/-- `BTreeMap::into_values`: the values in ascending key order. -/
def intoValues (m : DropinMap) : List Bytes :=
  m.map (fun e => e.2)

/-- The loop of `find_main_file`, already running over the reversed search
directory list (`search_directories.rev()` in the source): probe
`search_directory.join(file_name)`; `NotFound` ⇒ continue, any other open
error ⇒ propagate, metadata error ⇒ propagate, not a regular file ⇒
continue, regular file ⇒ return it. -/
def findMainFileRev (fs : FS) (file_name : Bytes) : List Bytes → Except IoError (Option Bytes)
  | [] => .ok none
  | d :: rest =>
    match fs.openFile (pathJoin d file_name) with
    | .error e =>
      if e.isNotFound then findMainFileRev fs file_name rest else .error e
    | .ok () =>
      match fs.isFile (pathJoin d file_name) with
      | .error e => .error e
      | .ok true => .ok (some (pathJoin d file_name))
      | .ok false => findMainFileRev fs file_name rest

/-- `find_main_file`: scan the search directories from last to first for a
regular file named `file_name`. -/
def find_main_file (fs : FS) (file_name : Bytes) (search_directories : List Bytes) :
    Except IoError (Option Bytes) :=
  findMainFileRev fs file_name search_directories.reverse

/-- The inner `for entry in entries` loop of `find_dropins`, over one dropin
directory, instrumented with the ghost trace of paths passed to
`File::open`.  Per entry: a failed directory-iterator item propagates; a
name not ending in the suffix is skipped; a name already in the map is
skipped **before any open**; otherwise the file is opened (recorded in the
trace), with `NotFound` skipped, other open and metadata errors propagated,
non-regular files skipped, and regular files recorded in the map. -/
def processEntriesT (fs : FS) (dropin_suffix dir : Bytes) :
    List (Except IoError Bytes) → DropinMap → List Bytes →
    Except IoError DropinMap × List Bytes
  | [], acc, tr => (.ok acc, tr)
  | .error e :: _, _, tr => (.error e, tr)
  | .ok file_name :: rest, acc, tr =>
    if ¬ (dropin_suffix.isSuffixOf file_name) then
      processEntriesT fs dropin_suffix dir rest acc tr
    else if mapContains acc file_name then
      processEntriesT fs dropin_suffix dir rest acc tr
    else
      match fs.openFile (pathJoin dir file_name) with
      | .error e =>
        if e.isNotFound then
          processEntriesT fs dropin_suffix dir rest acc (tr ++ [pathJoin dir file_name])
        else (.error e, tr ++ [pathJoin dir file_name])
      | .ok () =>
        match fs.isFile (pathJoin dir file_name) with
        | .error e => (.error e, tr ++ [pathJoin dir file_name])
        | .ok true =>
          processEntriesT fs dropin_suffix dir rest
            (mapInsert file_name (pathJoin dir file_name) acc)
            (tr ++ [pathJoin dir file_name])
        | .ok false =>
          processEntriesT fs dropin_suffix dir rest acc (tr ++ [pathJoin dir file_name])

/-- The outer loop of `find_dropins`, already running over the reversed
dropin-directory list: `read_dir` failing with `NotFound` skips the
directory, any other listing error propagates; otherwise the entries are
folded through `processEntriesT`. -/
def findDropinsRevT (fs : FS) (dropin_suffix : Bytes) :
    List Bytes → DropinMap → List Bytes → Except IoError DropinMap × List Bytes
  | [], acc, tr => (.ok acc, tr)
  | d :: rest, acc, tr =>
    match fs.readDir d with
    | .error e =>
      if e.isNotFound then findDropinsRevT fs dropin_suffix rest acc tr
      else (.error e, tr)
    | .ok entries =>
      match processEntriesT fs dropin_suffix d entries acc tr with
      | (.ok acc', tr') => findDropinsRevT fs dropin_suffix rest acc' tr'
      | (.error e, tr') => (.error e, tr')

/-- `find_dropins` with its ghost open-trace: scan the dropin directories
from last to first, accumulating the deduplicating sorted map. -/
def findDropinsMapT (fs : FS) (dropin_suffix : Bytes) (search_directories : List Bytes) :
    Except IoError DropinMap × List Bytes :=
  findDropinsRevT fs dropin_suffix search_directories.reverse [] []

/-- `find_dropins` up to `into_values`: the final `BTreeMap`. -/
def find_dropins_map (fs : FS) (dropin_suffix : Bytes) (search_directories : List Bytes) :
    Except IoError DropinMap :=
  (findDropinsMapT fs dropin_suffix search_directories).1

/-- `find_dropins`: the dropin files (their paths), in ascending
lexicographic order of their raw file names. -/
def find_dropins (fs : FS) (dropin_suffix : Bytes) (search_directories : List Bytes) :
    Except IoError (List Bytes) :=
  Except.map intoValues (find_dropins_map fs dropin_suffix search_directories)

/-- The raw byte construction `SearchDirectoriesForProject::find_files`
applies to each root: `path_bytes.push(b'/'); extend(project); extend(".d")`. -/
def projectDropinDir (project root : Bytes) : Bytes :=
  root ++ [slashByte] ++ project ++ dotD

/-- The raw byte construction `SearchDirectoriesForFileName::find_files`
applies to each root: `path_bytes.push(b'/'); extend(file_name); extend(".d")`. -/
def fileNameDropinDir (file_name root : Bytes) : Bytes :=
  root ++ [slashByte] ++ file_name ++ dotD

/-- The raw byte construction `SearchDirectoriesForProjectAndFileName::find_files`
applies to each root:
`push(b'/'); extend(project); push(b'/'); extend(file_name); extend(".d")`. -/
def projectFileNameDropinDir (project file_name root : Bytes) : Bytes :=
  root ++ [slashByte] ++ project ++ [slashByte] ++ file_name ++ dotD

/-- `SearchDirectoriesForProject::find_files`: no main file is looked up;
the result is `None.into_iter().chain(dropins)` over the `<project>.d`
directories. -/
def SearchDirectoriesForProject.find_files (fs : FS) (inner : List Bytes)
    (project dropin_suffix : Bytes) : Except IoError (List Bytes) :=
  match find_dropins fs dropin_suffix (inner.map (projectDropinDir project)) with
  | .error e => .error e
  | .ok dropins => .ok ((none : Option Bytes).toList ++ dropins)

/-- `SearchDirectoriesForFileName::find_files`: the main file is resolved
over the roots themselves; dropins come from the `<file_name>.d`
directories when a suffix is supplied, else `Default::default()` (empty);
the yield is `main_file.into_iter().chain(dropins)`. -/
def SearchDirectoriesForFileName.find_files (fs : FS) (inner : List Bytes)
    (file_name : Bytes) (dropin_suffix : Option Bytes) : Except IoError (List Bytes) :=
  match find_main_file fs file_name inner with
  | .error e => .error e
  | .ok main_file =>
    match
      (match dropin_suffix with
       | some s => find_dropins fs s (inner.map (fileNameDropinDir file_name))
       | none => .ok []) with
    | .error e => .error e
    | .ok dropins => .ok (main_file.toList ++ dropins)

/-- `SearchDirectoriesForProjectAndFileName::find_files`: the main file is
resolved over `path.join(project)` for each root; dropins come from the
`<project>/<file_name>.d` directories when a suffix is supplied. -/
def SearchDirectoriesForProjectAndFileName.find_files (fs : FS) (inner : List Bytes)
    (project file_name : Bytes) (dropin_suffix : Option Bytes) :
    Except IoError (List Bytes) :=
  match find_main_file fs file_name (inner.map (fun path => pathJoin path project)) with
  | .error e => .error e
  | .ok main_file =>
    match
      (match dropin_suffix with
       | some s => find_dropins fs s (inner.map (projectFileNameDropinDir project file_name))
       | none => .ok []) with
    | .error e => .error e
    | .ok dropins => .ok (main_file.toList ++ dropins)

/-- A component of `Path::components()`; the Windows-only `Prefix` variant,
which the source marks `unreachable!`, is not modelled. -/
inductive Component
  | rootDir
  | curDir
  | parentDir
  | normal (s : Bytes)
deriving DecidableEq, Repr

/-- A path as its `Path::components()` sequence: the view `validate_path`
and `chroot` work on. -/
abbrev CPath := List Component

/-- `matches!(component, Component::ParentDir)`. -/
def Component.isParentDir : Component → Bool
  | .parentDir => true
  | _ => false

/-- `Component::Normal(_)`: the components `chroot` re-joins onto the new
base (`RootDir` and `CurDir` are skipped; `ParentDir` is `unreachable!` in
the source because every stored root passed `validate_path`). -/
def Component.isNormal : Component → Bool
  | .normal _ => true
  | _ => false

/-- The error for a path that does not start with `Component::RootDir` or
that contains `Component::ParentDir`. -/
structure InvalidPathError
deriving DecidableEq, Repr

/-- `validate_path`: the first component must be `RootDir` and none of the
remaining components may be `ParentDir`. -/
def validate_path (path : CPath) : Except InvalidPathError Unit :=
  match path with
  | Component.rootDir :: rest =>
    if rest.any Component.isParentDir then .error ⟨⟩ else .ok ()
  | _ => .error ⟨⟩

/-- `SearchDirectories::push` on `&mut self`, modelled state-passing style:
the returned pair is (the `Result`, the list after the call). -/
def SearchDirectories.push (inner : List CPath) (path : CPath) :
    Except InvalidPathError Unit × List CPath :=
  match validate_path path with
  | .error e => (.error e, inner)
  | .ok () => (.ok (), inner ++ [path])

/-- The body of `chroot`'s per-directory loop: start from the new root and
push every `Normal` component of the old directory, in order (`RootDir` and
`CurDir` contribute nothing). -/
def rebaseRoot (root dir : CPath) : CPath :=
  root ++ dir.filter Component.isNormal

/-- `SearchDirectories::chroot`: validate the new root, then rebase every
stored directory onto it. -/
def SearchDirectories.chroot (inner : List CPath) (root : CPath) :
    Except InvalidPathError (List CPath) :=
  match validate_path root with
  | .error e => .error e
  | .ok () => .ok (inner.map (rebaseRoot root))

/-- The two environment variables `with_user_directory` reads
(`std::env::var_os`); a value is a path, `none` is an unset variable, `[]`
an empty one. -/
structure Env where
  xdg_config_home : Option CPath
  home : Option CPath

/-- The bytes `".config"`. -/
def dotConfig : Bytes := [46, 99, 111, 110, 102, 105, 103]

/-- The `HOME` fallback arm of `with_user_directory`: a set, non-empty
`HOME` with `".config"` pushed onto it, else nothing. -/
def homeConfigDir (home : Option CPath) : Option CPath :=
  match home with
  | some value => if value = [] then none else some (value ++ [Component.normal dotConfig])
  | none => none

/-- The `user_config_dir` computed by `with_user_directory` (the
non-`dirs`-feature implementation): a set, non-empty `XDG_CONFIG_HOME`,
else the `HOME` fallback. -/
def userConfigDir (env : Env) : Option CPath :=
  match env.xdg_config_home with
  | some value => if value = [] then homeConfigDir env.home else some value
  | none => homeConfigDir env.home

/-- `SearchDirectories::with_user_directory`: push the environment-derived
user configuration directory if there is one, discarding `push`'s `Result`
(`_ = self.push(...)`: a value failing validation is silently ignored). -/
def SearchDirectories.with_user_directory (env : Env) (inner : List CPath) : List CPath :=
  match userConfigDir env with
  | some dir => (SearchDirectories.push inner dir).2
  | none => inner

/-- Modelled from the spec for comparison in claim C10: the drop-in scan
"with no name filtering at all" — `processEntriesT` with the suffix test
removed, all else identical. -/
def processEntriesNoFilterT (fs : FS) (dir : Bytes) :
    List (Except IoError Bytes) → DropinMap → List Bytes →
    Except IoError DropinMap × List Bytes
  | [], acc, tr => (.ok acc, tr)
  | .error e :: _, _, tr => (.error e, tr)
  | .ok file_name :: rest, acc, tr =>
    if mapContains acc file_name then
      processEntriesNoFilterT fs dir rest acc tr
    else
      match fs.openFile (pathJoin dir file_name) with
      | .error e =>
        if e.isNotFound then
          processEntriesNoFilterT fs dir rest acc (tr ++ [pathJoin dir file_name])
        else (.error e, tr ++ [pathJoin dir file_name])
      | .ok () =>
        match fs.isFile (pathJoin dir file_name) with
        | .error e => (.error e, tr ++ [pathJoin dir file_name])
        | .ok true =>
          processEntriesNoFilterT fs dir rest
            (mapInsert file_name (pathJoin dir file_name) acc)
            (tr ++ [pathJoin dir file_name])
        | .ok false =>
          processEntriesNoFilterT fs dir rest acc (tr ++ [pathJoin dir file_name])

/-- Modelled from the spec for comparison in claim C10: the outer drop-in
loop with no name filtering. -/
def findDropinsNoFilterRevT (fs : FS) :
    List Bytes → DropinMap → List Bytes → Except IoError DropinMap × List Bytes
  | [], acc, tr => (.ok acc, tr)
  | d :: rest, acc, tr =>
    match fs.readDir d with
    | .error e =>
      if e.isNotFound then findDropinsNoFilterRevT fs rest acc tr
      else (.error e, tr)
    | .ok entries =>
      match processEntriesNoFilterT fs d entries acc tr with
      | (.ok acc', tr') => findDropinsNoFilterRevT fs rest acc' tr'
      | (.error e, tr') => (.error e, tr')

/-- Modelled from the spec for comparison in claim C10: `find_dropins` run
with no name filtering at all. -/
def find_dropins_no_filter (fs : FS) (search_directories : List Bytes) :
    Except IoError (List Bytes) :=
  Except.map intoValues (findDropinsNoFilterRevT fs search_directories.reverse [] []).1

/-! ### Order and map lemmas -/

/-- Key order on dropin-map entries. -/
def keyLt (a b : Bytes × Bytes) : Prop := bytesLt a.1 b.1 = true

theorem bytesLt_cons_iff {a b : Nat} {as bs : Bytes} :
    bytesLt (a :: as) (b :: bs) = true ↔ a < b ∨ (a = b ∧ bytesLt as bs = true) := by
  simp only [bytesLt]
  by_cases h1 : a < b
  · simp [h1]
  · by_cases h2 : b < a
    · simp only [if_neg h1, if_pos h2]
      constructor
      · intro h; exact absurd h (by simp)
      · rintro (h | ⟨h, _⟩) <;> omega
    · have he : a = b := by omega
      simp [h1, h2, he]

theorem bytesLt_nil_right {a : Bytes} : bytesLt a [] = false := by
  cases a <;> rfl

theorem bytesLt_irrefl : ∀ a : Bytes, bytesLt a a = false
  | [] => rfl
  | a :: as => by simp [bytesLt, bytesLt_irrefl as]

theorem bytesLt_trans : ∀ {a b c : Bytes},
    bytesLt a b = true → bytesLt b c = true → bytesLt a c = true := by
  intro a
  induction a with
  | nil =>
    intro b c h1 h2
    cases b with
    | nil => exact absurd h1 (by simp [bytesLt_nil_right])
    | cons b0 bs =>
      cases c with
      | nil => exact absurd h2 (by simp [bytesLt_nil_right])
      | cons c0 cs => simp [bytesLt]
  | cons a0 as ih =>
    intro b c h1 h2
    cases b with
    | nil => exact absurd h1 (by simp [bytesLt_nil_right])
    | cons b0 bs =>
      cases c with
      | nil => exact absurd h2 (by simp [bytesLt_nil_right])
      | cons c0 cs =>
        rw [bytesLt_cons_iff] at h1 h2 ⊢
        rcases h1 with h1 | ⟨h1e, h1t⟩
        · rcases h2 with h2 | ⟨h2e, h2t⟩
          · exact Or.inl (by omega)
          · exact Or.inl (by omega)
        · rcases h2 with h2 | ⟨h2e, h2t⟩
          · exact Or.inl (by omega)
          · exact Or.inr ⟨by omega, ih h1t h2t⟩

theorem bytesLt_total : ∀ {a b : Bytes},
    bytesLt a b = false → a ≠ b → bytesLt b a = true := by
  intro a
  induction a with
  | nil =>
    intro b h hne
    cases b with
    | nil => exact absurd rfl hne
    | cons b0 bs => exact absurd h (by simp [bytesLt])
  | cons a0 as ih =>
    intro b h hne
    cases b with
    | nil => rfl
    | cons b0 bs =>
      have h' : ¬ (a0 < b0 ∨ (a0 = b0 ∧ bytesLt as bs = true)) := by
        rw [← bytesLt_cons_iff]; simp [h]
      push_neg at h'
      rw [bytesLt_cons_iff]
      by_cases he : a0 = b0
      · subst he
        have hne' : as ≠ bs := fun hh => hne (by rw [hh])
        exact Or.inr ⟨rfl, ih (by simpa using h'.2 rfl) hne'⟩
      · exact Or.inl (by omega)

theorem mem_mapInsert {k v : Bytes} : ∀ {m : DropinMap} {x : Bytes × Bytes},
    x ∈ mapInsert k v m → x = (k, v) ∨ x ∈ m := by
  intro m
  induction m with
  | nil =>
    intro x hx
    simp [mapInsert] at hx
    exact Or.inl hx
  | cons e rest ih =>
    intro x hx
    obtain ⟨k', v'⟩ := e
    simp only [mapInsert] at hx
    split at hx
    · rcases List.mem_cons.1 hx with h | h
      · exact Or.inl h
      · exact Or.inr h
    · split at hx
      · rcases List.mem_cons.1 hx with h | h
        · exact Or.inl h
        · exact Or.inr (List.mem_cons_of_mem _ h)
      · rcases List.mem_cons.1 hx with h | h
        · exact Or.inr (by simp [h])
        · rcases ih h with h' | h'
          · exact Or.inl h'
          · exact Or.inr (List.mem_cons_of_mem _ h')

theorem mapInsert_pairwise {k v : Bytes} : ∀ {m : DropinMap},
    m.Pairwise keyLt → (mapInsert k v m).Pairwise keyLt := by
  intro m
  induction m with
  | nil => intro _; simp [mapInsert, List.pairwise_cons]
  | cons e rest ih =>
    intro hm
    obtain ⟨k', v'⟩ := e
    rw [List.pairwise_cons] at hm
    obtain ⟨hhead, htail⟩ := hm
    simp only [mapInsert]
    split
    · rename_i hlt
      rw [List.pairwise_cons]
      refine ⟨?_, by rw [List.pairwise_cons]; exact ⟨hhead, htail⟩⟩
      intro x hx
      rcases List.mem_cons.1 hx with h | h
      · subst h; exact hlt
      · exact bytesLt_trans hlt (hhead x h)
    · split
      · rename_i hnlt heq
        subst heq
        rw [List.pairwise_cons]
        exact ⟨fun x hx => hhead x hx, htail⟩
      · rename_i hnlt hne
        rw [List.pairwise_cons]
        refine ⟨?_, ih htail⟩
        intro x hx
        rcases mem_mapInsert hx with h | h
        · subst h
          exact bytesLt_total (by simpa using hnlt) hne
        · exact hhead x h

theorem mapContains_iff {m : DropinMap} {n : Bytes} :
    mapContains m n = true ↔ ∃ v, (n, v) ∈ m := by
  simp only [mapContains, List.any_eq_true, decide_eq_true_eq]
  constructor
  · rintro ⟨⟨a, b⟩, hm, h⟩
    exact ⟨b, by rwa [show a = n from h] at hm⟩
  · rintro ⟨v, hv⟩
    exact ⟨(n, v), hv, rfl⟩

theorem self_mem_mapInsert {k v : Bytes} : ∀ (m : DropinMap), (k, v) ∈ mapInsert k v m
  | [] => by simp [mapInsert]
  | (k', v') :: rest => by
    simp only [mapInsert]
    by_cases hlt : bytesLt k k' = true
    · simp [if_pos hlt]
    · rw [if_neg hlt]
      by_cases heq : k = k'
      · simp [if_pos heq]
      · rw [if_neg heq]
        exact List.mem_cons_of_mem _ (self_mem_mapInsert rest)

theorem mem_mapInsert_of_ne {k v : Bytes} {x : Bytes × Bytes} (hne : x.1 ≠ k) :
    ∀ {m : DropinMap}, x ∈ m → x ∈ mapInsert k v m := by
  intro m
  induction m with
  | nil => intro h; exact absurd h (List.not_mem_nil x)
  | cons e rest ih =>
    intro hx
    obtain ⟨k', v'⟩ := e
    simp only [mapInsert]
    by_cases hlt : bytesLt k k' = true
    · rw [if_pos hlt]
      exact List.mem_cons_of_mem _ hx
    · rw [if_neg hlt]
      by_cases heq : k = k'
      · rw [if_pos heq]
        rcases List.mem_cons.1 hx with h | h
        · exact absurd (by rw [h]; exact heq.symm) hne
        · exact List.mem_cons_of_mem _ h
      · rw [if_neg heq]
        rcases List.mem_cons.1 hx with h | h
        · exact h ▸ List.mem_cons_self _ _
        · exact List.mem_cons_of_mem _ (ih h)

theorem mapContains_mapInsert {k v n : Bytes} {m : DropinMap}
    (h : mapContains m n = true) : mapContains (mapInsert k v m) n = true := by
  rcases mapContains_iff.1 h with ⟨w, hw⟩
  by_cases hk : n = k
  · subst hk
    exact mapContains_iff.2 ⟨v, self_mem_mapInsert m⟩
  · exact mapContains_iff.2 ⟨w, mem_mapInsert_of_ne (by simpa using hk) hw⟩

theorem mapLookup_cons {k' v' n : Bytes} {rest : DropinMap} :
    mapLookup ((k', v') :: rest) n = if k' = n then some v' else mapLookup rest n := by
  by_cases h : k' = n
  · simp [mapLookup, List.find?, h]
  · simp [mapLookup, List.find?, h]

theorem mapLookup_mapInsert_ne {k v n : Bytes} (hne : k ≠ n) : ∀ {m : DropinMap},
    mapLookup (mapInsert k v m) n = mapLookup m n := by
  intro m
  induction m with
  | nil => simp [mapInsert, mapLookup, List.find?, hne]
  | cons e rest ih =>
    obtain ⟨k', v'⟩ := e
    simp only [mapInsert]
    by_cases hlt : bytesLt k k' = true
    · rw [if_pos hlt, mapLookup_cons, if_neg hne]
    · rw [if_neg hlt]
      by_cases heq : k = k'
      · rw [if_pos heq]
        subst heq
        rw [mapLookup_cons, if_neg hne, mapLookup_cons, if_neg hne]
      · rw [if_neg heq, mapLookup_cons, mapLookup_cons, ih]

/-! ### Step equations for the resolver loops -/

section StepEquations

variable {fs : FS} {dropin_suffix dir file_name d : Bytes}
variable {rest : List (Except IoError Bytes)} {acc : DropinMap} {tr : List Bytes}

theorem processEntriesT_nil :
    processEntriesT fs dropin_suffix dir [] acc tr = (.ok acc, tr) := rfl

theorem processEntriesT_entry_error (e : IoError) :
    processEntriesT fs dropin_suffix dir (.error e :: rest) acc tr = (.error e, tr) := rfl

theorem processEntriesT_skip_suffix (h1 : dropin_suffix.isSuffixOf file_name = false) :
    processEntriesT fs dropin_suffix dir (.ok file_name :: rest) acc tr =
      processEntriesT fs dropin_suffix dir rest acc tr := by
  simp [processEntriesT, h1]

theorem processEntriesT_skip_contains (h1 : dropin_suffix.isSuffixOf file_name = true)
    (h2 : mapContains acc file_name = true) :
    processEntriesT fs dropin_suffix dir (.ok file_name :: rest) acc tr =
      processEntriesT fs dropin_suffix dir rest acc tr := by
  simp [processEntriesT, h1, h2]

theorem processEntriesT_open_notFound (h1 : dropin_suffix.isSuffixOf file_name = true)
    (h2 : mapContains acc file_name = false)
    (h3 : fs.openFile (pathJoin dir file_name) = .error .notFound) :
    processEntriesT fs dropin_suffix dir (.ok file_name :: rest) acc tr =
      processEntriesT fs dropin_suffix dir rest acc (tr ++ [pathJoin dir file_name]) := by
  simp [processEntriesT, h1, h2, h3, IoError.isNotFound]

theorem processEntriesT_open_error (c : Nat) (h1 : dropin_suffix.isSuffixOf file_name = true)
    (h2 : mapContains acc file_name = false)
    (h3 : fs.openFile (pathJoin dir file_name) = .error (.other c)) :
    processEntriesT fs dropin_suffix dir (.ok file_name :: rest) acc tr =
      (.error (.other c), tr ++ [pathJoin dir file_name]) := by
  simp [processEntriesT, h1, h2, h3, IoError.isNotFound]

theorem processEntriesT_meta_error (e : IoError) (h1 : dropin_suffix.isSuffixOf file_name = true)
    (h2 : mapContains acc file_name = false)
    (h3 : fs.openFile (pathJoin dir file_name) = .ok ())
    (h4 : fs.isFile (pathJoin dir file_name) = .error e) :
    processEntriesT fs dropin_suffix dir (.ok file_name :: rest) acc tr =
      (.error e, tr ++ [pathJoin dir file_name]) := by
  simp [processEntriesT, h1, h2, h3, h4]

theorem processEntriesT_record (h1 : dropin_suffix.isSuffixOf file_name = true)
    (h2 : mapContains acc file_name = false)
    (h3 : fs.openFile (pathJoin dir file_name) = .ok ())
    (h4 : fs.isFile (pathJoin dir file_name) = .ok true) :
    processEntriesT fs dropin_suffix dir (.ok file_name :: rest) acc tr =
      processEntriesT fs dropin_suffix dir rest
        (mapInsert file_name (pathJoin dir file_name) acc)
        (tr ++ [pathJoin dir file_name]) := by
  simp [processEntriesT, h1, h2, h3, h4]

theorem processEntriesT_skip_nonfile (h1 : dropin_suffix.isSuffixOf file_name = true)
    (h2 : mapContains acc file_name = false)
    (h3 : fs.openFile (pathJoin dir file_name) = .ok ())
    (h4 : fs.isFile (pathJoin dir file_name) = .ok false) :
    processEntriesT fs dropin_suffix dir (.ok file_name :: rest) acc tr =
      processEntriesT fs dropin_suffix dir rest acc (tr ++ [pathJoin dir file_name]) := by
  simp [processEntriesT, h1, h2, h3, h4]

theorem findDropinsRevT_nil :
    findDropinsRevT fs dropin_suffix [] acc tr = (.ok acc, tr) := rfl

theorem findDropinsRevT_dir_notFound (dirs : List Bytes)
    (h : fs.readDir d = .error .notFound) :
    findDropinsRevT fs dropin_suffix (d :: dirs) acc tr =
      findDropinsRevT fs dropin_suffix dirs acc tr := by
  simp [findDropinsRevT, h, IoError.isNotFound]

theorem findDropinsRevT_dir_error (dirs : List Bytes) (c : Nat)
    (h : fs.readDir d = .error (.other c)) :
    findDropinsRevT fs dropin_suffix (d :: dirs) acc tr = (.error (.other c), tr) := by
  simp [findDropinsRevT, h, IoError.isNotFound]

theorem findDropinsRevT_dir_ok (dirs : List Bytes) (entries : List (Except IoError Bytes))
    (h : fs.readDir d = .ok entries) :
    findDropinsRevT fs dropin_suffix (d :: dirs) acc tr =
      match processEntriesT fs dropin_suffix d entries acc tr with
      | (.ok acc', tr') => findDropinsRevT fs dropin_suffix dirs acc' tr'
      | (.error e, tr') => (.error e, tr') := by
  simp [findDropinsRevT, h]

theorem findMainFileRev_nil : findMainFileRev fs file_name [] = .ok none := rfl

theorem findMainFileRev_notFound (dirs : List Bytes)
    (h : fs.openFile (pathJoin d file_name) = .error .notFound) :
    findMainFileRev fs file_name (d :: dirs) = findMainFileRev fs file_name dirs := by
  simp [findMainFileRev, h, IoError.isNotFound]

theorem findMainFileRev_error (dirs : List Bytes) (c : Nat)
    (h : fs.openFile (pathJoin d file_name) = .error (.other c)) :
    findMainFileRev fs file_name (d :: dirs) = .error (.other c) := by
  simp [findMainFileRev, h, IoError.isNotFound]

theorem findMainFileRev_meta_error (dirs : List Bytes) (e : IoError)
    (h : fs.openFile (pathJoin d file_name) = .ok ())
    (h2 : fs.isFile (pathJoin d file_name) = .error e) :
    findMainFileRev fs file_name (d :: dirs) = .error e := by
  simp [findMainFileRev, h, h2]

theorem findMainFileRev_found (dirs : List Bytes)
    (h : fs.openFile (pathJoin d file_name) = .ok ())
    (h2 : fs.isFile (pathJoin d file_name) = .ok true) :
    findMainFileRev fs file_name (d :: dirs) = .ok (some (pathJoin d file_name)) := by
  simp [findMainFileRev, h, h2]

theorem findMainFileRev_nonfile (dirs : List Bytes)
    (h : fs.openFile (pathJoin d file_name) = .ok ())
    (h2 : fs.isFile (pathJoin d file_name) = .ok false) :
    findMainFileRev fs file_name (d :: dirs) = findMainFileRev fs file_name dirs := by
  simp [findMainFileRev, h, h2]

end StepEquations

/-! ### Invariants of the drop-in fold -/

/-- Any property of the accumulated map that is stable under inserting a
key the map does not yet contain is preserved by the per-directory entry
loop (a successful run only ever performs such inserts). -/
theorem processEntriesT_preserve {fs : FS} {dropin_suffix dir : Bytes}
    (P : DropinMap → Prop)
    (hP : ∀ k v m, P m → mapContains m k = false → P (mapInsert k v m)) :
    ∀ (entries : List (Except IoError Bytes)) (acc : DropinMap) (tr : List Bytes),
      P acc → ∀ (acc' : DropinMap) (tr' : List Bytes),
        processEntriesT fs dropin_suffix dir entries acc tr = (.ok acc', tr') → P acc' := by
  intro entries
  induction entries with
  | nil =>
    intro acc tr hacc acc' tr' h
    rw [processEntriesT_nil] at h
    simp only [Prod.mk.injEq, Except.ok.injEq] at h
    obtain ⟨rfl, rfl⟩ := h
    exact hacc
  | cons entry rest ih =>
    intro acc tr hacc acc' tr' h
    cases entry with
    | error e =>
      rw [processEntriesT_entry_error] at h
      simp only [Prod.mk.injEq] at h
      exact absurd h.1 (by simp)
    | ok file_name =>
      cases hsf : dropin_suffix.isSuffixOf file_name with
      | false =>
        rw [processEntriesT_skip_suffix hsf] at h
        exact ih acc tr hacc acc' tr' h
      | true =>
        cases hc : mapContains acc file_name with
        | true =>
          rw [processEntriesT_skip_contains hsf hc] at h
          exact ih acc tr hacc acc' tr' h
        | false =>
          cases hopen : fs.openFile (pathJoin dir file_name) with
          | error e =>
            cases e with
            | notFound =>
              rw [processEntriesT_open_notFound hsf hc hopen] at h
              exact ih acc _ hacc acc' tr' h
            | other c =>
              rw [processEntriesT_open_error c hsf hc hopen] at h
              simp only [Prod.mk.injEq] at h
              exact absurd h.1 (by simp)
          | ok u =>
            cases u
            cases hisf : fs.isFile (pathJoin dir file_name) with
            | error e =>
              rw [processEntriesT_meta_error e hsf hc hopen hisf] at h
              simp only [Prod.mk.injEq] at h
              exact absurd h.1 (by simp)
            | ok b =>
              cases b with
              | true =>
                rw [processEntriesT_record hsf hc hopen hisf] at h
                exact ih _ _ (hP _ _ _ hacc hc) acc' tr' h
              | false =>
                rw [processEntriesT_skip_nonfile hsf hc hopen hisf] at h
                exact ih acc _ hacc acc' tr' h

/-- The same preservation, lifted to the scan over the whole (reversed)
directory list. -/
theorem findDropinsRevT_preserve {fs : FS} {dropin_suffix : Bytes}
    (P : DropinMap → Prop)
    (hP : ∀ k v m, P m → mapContains m k = false → P (mapInsert k v m)) :
    ∀ (dirs : List Bytes) (acc : DropinMap) (tr : List Bytes),
      P acc → ∀ (acc' : DropinMap) (tr' : List Bytes),
        findDropinsRevT fs dropin_suffix dirs acc tr = (.ok acc', tr') → P acc' := by
  intro dirs
  induction dirs with
  | nil =>
    intro acc tr hacc acc' tr' h
    rw [findDropinsRevT_nil] at h
    simp only [Prod.mk.injEq, Except.ok.injEq] at h
    obtain ⟨rfl, rfl⟩ := h
    exact hacc
  | cons d dirs ih =>
    intro acc tr hacc acc' tr' h
    cases hrd : fs.readDir d with
    | error e =>
      cases e with
      | notFound =>
        rw [findDropinsRevT_dir_notFound dirs hrd] at h
        exact ih acc tr hacc acc' tr' h
      | other c =>
        rw [findDropinsRevT_dir_error dirs c hrd] at h
        simp only [Prod.mk.injEq] at h
        exact absurd h.1 (by simp)
    | ok entries =>
      rw [findDropinsRevT_dir_ok dirs entries hrd] at h
      cases hpe : processEntriesT fs dropin_suffix d entries acc tr with
      | mk r tr₁ =>
        cases r with
        | error e =>
          rw [hpe] at h
          simp only [Prod.mk.injEq] at h
          exact absurd h.1 (by simp)
        | ok acc₁ =>
          rw [hpe] at h
          exact ih acc₁ tr₁ (processEntriesT_preserve P hP entries acc tr hacc acc₁ tr₁ hpe)
            acc' tr' h

/-- Every path the per-directory loop adds to the open trace is the join of
the directory with an entry name that the map did **not** contain when the
loop started. -/
theorem processEntriesT_opened {fs : FS} {dropin_suffix dir : Bytes} :
    ∀ (entries : List (Except IoError Bytes)) (acc : DropinMap) (tr : List Bytes)
      (p : Bytes), p ∈ (processEntriesT fs dropin_suffix dir entries acc tr).2 →
      p ∈ tr ∨ ∃ name, p = pathJoin dir name ∧ mapContains acc name = false := by
  intro entries
  induction entries with
  | nil =>
    intro acc tr p hp
    rw [processEntriesT_nil] at hp
    exact Or.inl hp
  | cons entry rest ih =>
    intro acc tr p hp
    cases entry with
    | error e =>
      rw [processEntriesT_entry_error] at hp
      exact Or.inl hp
    | ok file_name =>
      cases hsf : dropin_suffix.isSuffixOf file_name with
      | false =>
        rw [processEntriesT_skip_suffix hsf] at hp
        exact ih acc tr p hp
      | true =>
        cases hc : mapContains acc file_name with
        | true =>
          rw [processEntriesT_skip_contains hsf hc] at hp
          exact ih acc tr p hp
        | false =>
          have hsplit : ∀ q : Bytes, q ∈ tr ++ [pathJoin dir file_name] →
              q ∈ tr ∨ ∃ name, q = pathJoin dir name ∧ mapContains acc name = false := by
            intro q hq
            rcases List.mem_append.1 hq with h | h
            · exact Or.inl h
            · exact Or.inr ⟨file_name, by simpa using h, hc⟩
          cases hopen : fs.openFile (pathJoin dir file_name) with
          | error e =>
            cases e with
            | notFound =>
              rw [processEntriesT_open_notFound hsf hc hopen] at hp
              rcases ih acc _ p hp with h | h
              · exact hsplit p h
              · exact Or.inr h
            | other c =>
              rw [processEntriesT_open_error c hsf hc hopen] at hp
              exact hsplit p hp
          | ok u =>
            cases u
            cases hisf : fs.isFile (pathJoin dir file_name) with
            | error e =>
              rw [processEntriesT_meta_error e hsf hc hopen hisf] at hp
              exact hsplit p hp
            | ok b =>
              cases b with
              | true =>
                rw [processEntriesT_record hsf hc hopen hisf] at hp
                rcases ih _ _ p hp with h | ⟨name, hn, hcn⟩
                · exact hsplit p h
                · refine Or.inr ⟨name, hn, ?_⟩
                  cases hq : mapContains acc name with
                  | false => rfl
                  | true =>
                    exact absurd
                      (@mapContains_mapInsert file_name (pathJoin dir file_name) name acc hq)
                      (by simp [hcn])
              | false =>
                rw [processEntriesT_skip_nonfile hsf hc hopen hisf] at hp
                rcases ih acc _ p hp with h | h
                · exact hsplit p h
                · exact Or.inr h

/-- Splitting the directory scan: running over `l₁ ++ l₂` is running over
`l₁` and continuing over `l₂` from the state it left, unless `l₁` aborts. -/
theorem findDropinsRevT_append {fs : FS} {dropin_suffix : Bytes} :
    ∀ (l₁ l₂ : List Bytes) (acc : DropinMap) (tr : List Bytes),
      findDropinsRevT fs dropin_suffix (l₁ ++ l₂) acc tr =
        match findDropinsRevT fs dropin_suffix l₁ acc tr with
        | (.ok acc', tr') => findDropinsRevT fs dropin_suffix l₂ acc' tr'
        | (.error e, tr') => (.error e, tr') := by
  intro l₁
  induction l₁ with
  | nil =>
    intro l₂ acc tr
    rw [List.nil_append, findDropinsRevT_nil]
  | cons d l₁ ih =>
    intro l₂ acc tr
    rw [List.cons_append]
    cases hrd : fs.readDir d with
    | error e =>
      cases e with
      | notFound =>
        rw [findDropinsRevT_dir_notFound (l₁ ++ l₂) hrd, findDropinsRevT_dir_notFound l₁ hrd]
        exact ih l₂ acc tr
      | other c =>
        rw [findDropinsRevT_dir_error (l₁ ++ l₂) c hrd, findDropinsRevT_dir_error l₁ c hrd]
    | ok entries =>
      rw [findDropinsRevT_dir_ok (l₁ ++ l₂) entries hrd, findDropinsRevT_dir_ok l₁ entries hrd]
      cases hpe : processEntriesT fs dropin_suffix d entries acc tr with
      | mk r tr₁ =>
        cases r with
        | error e => rfl
        | ok acc₁ => exact ih l₂ acc₁ tr₁

/-! ### Claim C1 -/

/-- Where a successful main-file hit comes from: the scanned list splits at
the winning directory, and every directory scanned before it (higher
priority, earlier in the reversed list) either did not have the file or had
it as a non-regular file. -/
theorem findMainFileRev_ok_some {fs : FS} {file_name : Bytes} :
    ∀ (l : List Bytes) (p : Bytes), findMainFileRev fs file_name l = .ok (some p) →
      ∃ pre d post, l = pre ++ d :: post ∧ p = pathJoin d file_name ∧
        fs.openFile p = .ok () ∧ fs.isFile p = .ok true ∧
        ∀ d' ∈ pre,
          fs.openFile (pathJoin d' file_name) = .error IoError.notFound ∨
          (fs.openFile (pathJoin d' file_name) = .ok () ∧
            fs.isFile (pathJoin d' file_name) = .ok false) := by
  intro l
  induction l with
  | nil =>
    intro p h
    rw [findMainFileRev_nil] at h
    exact absurd h (by simp)
  | cons d l ih =>
    intro p h
    cases hopen : fs.openFile (pathJoin d file_name) with
    | error e =>
      cases e with
      | notFound =>
        rw [findMainFileRev_notFound l hopen] at h
        obtain ⟨pre, dw, post, hl, hp, ho, hf, hall⟩ := ih p h
        refine ⟨d :: pre, dw, post, by rw [hl, List.cons_append], hp, ho, hf, ?_⟩
        intro d' hd'
        rcases List.mem_cons.1 hd' with h' | h'
        · subst h'; exact Or.inl hopen
        · exact hall d' h'
      | other c =>
        rw [findMainFileRev_error l c hopen] at h
        exact absurd h (by simp)
    | ok u =>
      cases u
      cases hisf : fs.isFile (pathJoin d file_name) with
      | error e =>
        rw [findMainFileRev_meta_error l e hopen hisf] at h
        exact absurd h (by simp)
      | ok b =>
        cases b with
        | true =>
          rw [findMainFileRev_found l hopen hisf] at h
          simp only [Except.ok.injEq, Option.some.injEq] at h
          subst h
          exact ⟨[], d, l, rfl, rfl, hopen, hisf, by simp⟩
        | false =>
          rw [findMainFileRev_nonfile l hopen hisf] at h
          obtain ⟨pre, dw, post, hl, hp, ho, hf, hall⟩ := ih p h
          refine ⟨d :: pre, dw, post, by rw [hl, List.cons_append], hp, ho, hf, ?_⟩
          intro d' hd'
          rcases List.mem_cons.1 hd' with h' | h'
          · subst h'; exact Or.inr ⟨hopen, hisf⟩
          · exact hall d' h'

/-- C1: `find_main_file` iterates the root list from last to first and
returns the first probed `root/file_name` that opens as a regular file; an
open failing with "not found" continues to the next lower-priority root, an
open failing with any other I/O error propagates immediately, a non-regular
file is skipped with the scan continuing, and an exhausted list gives
`Ok(None)`.  Consequently a returned main file always comes from the
highest-priority root that has one: every root of higher priority than the
winner failed to supply a regular file. -/
theorem find_main_file_spec (fs : FS) (file_name : Bytes) :
    (find_main_file fs file_name [] = .ok none)
    ∧ (∀ ds d, fs.openFile (pathJoin d file_name) = .error .notFound →
        find_main_file fs file_name (ds ++ [d]) = find_main_file fs file_name ds)
    ∧ (∀ ds d c, fs.openFile (pathJoin d file_name) = .error (.other c) →
        find_main_file fs file_name (ds ++ [d]) = .error (.other c))
    ∧ (∀ ds d, fs.openFile (pathJoin d file_name) = .ok () →
        fs.isFile (pathJoin d file_name) = .ok true →
        find_main_file fs file_name (ds ++ [d]) = .ok (some (pathJoin d file_name)))
    ∧ (∀ ds d, fs.openFile (pathJoin d file_name) = .ok () →
        fs.isFile (pathJoin d file_name) = .ok false →
        find_main_file fs file_name (ds ++ [d]) = find_main_file fs file_name ds)
    ∧ (∀ dirs p, find_main_file fs file_name dirs = .ok (some p) →
        ∃ lo d hi, dirs = lo ++ d :: hi ∧ p = pathJoin d file_name ∧
          fs.openFile p = .ok () ∧ fs.isFile p = .ok true ∧
          ∀ d' ∈ hi,
            fs.openFile (pathJoin d' file_name) = .error IoError.notFound ∨
            (fs.openFile (pathJoin d' file_name) = .ok () ∧
              fs.isFile (pathJoin d' file_name) = .ok false)) := by
  refine ⟨rfl, ?_, ?_, ?_, ?_, ?_⟩
  · intro ds d h
    unfold find_main_file
    rw [show (ds ++ [d]).reverse = d :: ds.reverse by simp]
    exact findMainFileRev_notFound _ h
  · intro ds d c h
    unfold find_main_file
    rw [show (ds ++ [d]).reverse = d :: ds.reverse by simp]
    exact findMainFileRev_error _ c h
  · intro ds d h h2
    unfold find_main_file
    rw [show (ds ++ [d]).reverse = d :: ds.reverse by simp]
    exact findMainFileRev_found _ h h2
  · intro ds d h h2
    unfold find_main_file
    rw [show (ds ++ [d]).reverse = d :: ds.reverse by simp]
    exact findMainFileRev_nonfile _ h h2
  · intro dirs p h
    obtain ⟨pre, d, post, hl, hp, ho, hf, hall⟩ := findMainFileRev_ok_some dirs.reverse p h
    refine ⟨post.reverse, d, pre.reverse, ?_, hp, ho, hf, ?_⟩
    · have h2 := congrArg List.reverse hl
      simpa using h2
    · intro d' hd'
      exact hall d' (List.mem_reverse.1 hd')

/-! ### Claims C2 and C3 -/

/-- C3: the sequence of drop-in entries produced by `find_dropins` is
ordered by strictly ascending lexicographic byte order of the raw file
name, for every input; `find_dropins` yields exactly the sorted map's
values, so which search root contributed an entry never affects its
position — root priority decided only which copy of a name was kept. -/
theorem find_dropins_sorted (fs : FS) (dropin_suffix : Bytes)
    (search_directories : List Bytes) (m : DropinMap)
    (h : find_dropins_map fs dropin_suffix search_directories = .ok m) :
    m.Pairwise keyLt ∧
      find_dropins fs dropin_suffix search_directories = .ok (intoValues m) := by
  constructor
  · have hrun : findDropinsRevT fs dropin_suffix search_directories.reverse [] [] =
        ((findDropinsMapT fs dropin_suffix search_directories).1,
         (findDropinsMapT fs dropin_suffix search_directories).2) := rfl
    simp only [find_dropins_map] at h
    rw [h] at hrun
    exact findDropinsRevT_preserve (fun mm => mm.Pairwise keyLt)
      (fun k v mm hmm _ => mapInsert_pairwise hmm)
      search_directories.reverse [] [] (by simp) m _ hrun
  · rw [find_dropins, h]
    rfl

/-- C2: once the map holds an entry for a raw file name — here, after the
higher-priority directories `hi` have been scanned — a later-scanned
lower-priority directory `d` never replaces that entry (the final map's
entry for the name is still the one the higher-priority scan recorded) and
never even opens its own file of that name: every path `d`'s scan passes to
`File::open` is the join of `d` with some *other* entry name. -/
theorem find_dropins_shadowing (fs : FS) (dropin_suffix : Bytes)
    (search_directories hi lo : List Bytes) (d n : Bytes)
    (acc : DropinMap) (tr : List Bytes)
    (hsplit : search_directories.reverse = hi ++ d :: lo)
    (hhi : findDropinsRevT fs dropin_suffix hi [] [] = (.ok acc, tr))
    (hn : mapContains acc n = true) :
    (∀ m, find_dropins_map fs dropin_suffix search_directories = .ok m →
        mapContains m n = true ∧ mapLookup m n = mapLookup acc n)
    ∧ (∀ entries, fs.readDir d = .ok entries →
        ∀ p ∈ (processEntriesT fs dropin_suffix d entries acc tr).2,
          p ∈ tr ∨ ∃ name, p = pathJoin d name ∧ name ≠ n) := by
  constructor
  · intro m hm
    simp only [find_dropins_map, findDropinsMapT] at hm
    rw [hsplit, findDropinsRevT_append hi (d :: lo) [] [], hhi] at hm
    have hm' : (findDropinsRevT fs dropin_suffix (d :: lo) acc tr).1 = .ok m := hm
    have hrun : findDropinsRevT fs dropin_suffix (d :: lo) acc tr =
        (.ok m, (findDropinsRevT fs dropin_suffix (d :: lo) acc tr).2) := by
      rw [← hm']
    exact findDropinsRevT_preserve
      (fun mm => mapContains mm n = true ∧ mapLookup mm n = mapLookup acc n)
      (fun k v mm hml hck => by
        have hkn : k ≠ n := by
          intro he
          rw [he, hml.1] at hck
          exact absurd hck (by simp)
        exact ⟨mapContains_mapInsert hml.1, by rw [mapLookup_mapInsert_ne hkn, hml.2]⟩)
      (d :: lo) acc tr ⟨hn, rfl⟩ m _ hrun
  · intro entries _ p hp
    rcases processEntriesT_opened entries acc tr p hp with h | ⟨name, hpn, hcn⟩
    · exact Or.inl h
    · refine Or.inr ⟨name, hpn, fun he => ?_⟩
      rw [he, hn] at hcn
      exact absurd hcn (by simp)

/-! ### Claim C4 -/

/-- C4: every successful `find_files` yields exactly the optional main-file
entry (zero or one element) followed by the drop-in entries in key order;
and the project-only call shape *is* the drop-in resolution over the
project's `.d` directories — no main file is looked up or yielded. -/
theorem find_files_composition (fs : FS) (inner : List Bytes) :
    (∀ project dropin_suffix,
        SearchDirectoriesForProject.find_files fs inner project dropin_suffix =
          find_dropins fs dropin_suffix (inner.map (projectDropinDir project)))
    ∧ (∀ file_name dropin_suffix out,
        SearchDirectoriesForFileName.find_files fs inner file_name (some dropin_suffix) =
          .ok out →
        ∃ main_file dropins,
          find_main_file fs file_name inner = .ok main_file ∧
          find_dropins fs dropin_suffix (inner.map (fileNameDropinDir file_name)) =
            .ok dropins ∧
          out = main_file.toList ++ dropins)
    ∧ (∀ file_name out,
        SearchDirectoriesForFileName.find_files fs inner file_name (none : Option Bytes) =
          .ok out →
        ∃ main_file,
          find_main_file fs file_name inner = .ok main_file ∧ out = main_file.toList)
    ∧ (∀ project file_name dropin_suffix out,
        SearchDirectoriesForProjectAndFileName.find_files fs inner project file_name
          (some dropin_suffix) = .ok out →
        ∃ main_file dropins,
          find_main_file fs file_name (inner.map (fun path => pathJoin path project)) =
            .ok main_file ∧
          find_dropins fs dropin_suffix
            (inner.map (projectFileNameDropinDir project file_name)) = .ok dropins ∧
          out = main_file.toList ++ dropins) := by
  refine ⟨?_, ?_, ?_, ?_⟩
  · intro project dropin_suffix
    cases hfd : find_dropins fs dropin_suffix (inner.map (projectDropinDir project)) with
    | error e => simp [SearchDirectoriesForProject.find_files, hfd]
    | ok dropins => simp [SearchDirectoriesForProject.find_files, hfd]
  · intro file_name dropin_suffix out h
    cases hmf : find_main_file fs file_name inner with
    | error e =>
      rw [show SearchDirectoriesForFileName.find_files fs inner file_name
            (some dropin_suffix) = .error e by
          simp [SearchDirectoriesForFileName.find_files, hmf]] at h
      exact absurd h (by simp)
    | ok main_file =>
      cases hfd : find_dropins fs dropin_suffix (inner.map (fileNameDropinDir file_name)) with
      | error e =>
        rw [show SearchDirectoriesForFileName.find_files fs inner file_name
              (some dropin_suffix) = .error e by
            simp [SearchDirectoriesForFileName.find_files, hmf, hfd]] at h
        exact absurd h (by simp)
      | ok dropins =>
        rw [show SearchDirectoriesForFileName.find_files fs inner file_name
              (some dropin_suffix) = .ok (main_file.toList ++ dropins) by
            simp [SearchDirectoriesForFileName.find_files, hmf, hfd]] at h
        cases h
        exact ⟨main_file, dropins, rfl, rfl, rfl⟩
  · intro file_name out h
    cases hmf : find_main_file fs file_name inner with
    | error e =>
      rw [show SearchDirectoriesForFileName.find_files fs inner file_name
            (none : Option Bytes) = .error e by
          simp [SearchDirectoriesForFileName.find_files, hmf]] at h
      exact absurd h (by simp)
    | ok main_file =>
      rw [show SearchDirectoriesForFileName.find_files fs inner file_name
            (none : Option Bytes) = .ok main_file.toList by
          simp [SearchDirectoriesForFileName.find_files, hmf]] at h
      cases h
      exact ⟨main_file, rfl, rfl⟩
  · intro project file_name dropin_suffix out h
    cases hmf : find_main_file fs file_name
        (inner.map (fun path => pathJoin path project)) with
    | error e =>
      rw [show SearchDirectoriesForProjectAndFileName.find_files fs inner project file_name
            (some dropin_suffix) = .error e by
          simp [SearchDirectoriesForProjectAndFileName.find_files, hmf]] at h
      exact absurd h (by simp)
    | ok main_file =>
      cases hfd : find_dropins fs dropin_suffix
          (inner.map (projectFileNameDropinDir project file_name)) with
      | error e =>
        rw [show SearchDirectoriesForProjectAndFileName.find_files fs inner project file_name
              (some dropin_suffix) = .error e by
            simp [SearchDirectoriesForProjectAndFileName.find_files, hmf, hfd]] at h
        exact absurd h (by simp)
      | ok dropins =>
        rw [show SearchDirectoriesForProjectAndFileName.find_files fs inner project file_name
              (some dropin_suffix) = .ok (main_file.toList ++ dropins) by
            simp [SearchDirectoriesForProjectAndFileName.find_files, hmf, hfd]] at h
        cases h
        exact ⟨main_file, dropins, rfl, rfl, rfl⟩

/-! ### Claim C5 -/

theorem pathJoin_eq_append {p q : Bytes} (hq : q.head? ≠ some slashByte)
    (hp : p ≠ []) (hpl : p.getLast? ≠ some slashByte) :
    pathJoin p q = p ++ [slashByte] ++ q := by
  simp [pathJoin, hq, hp, hpl]

theorem head?_append_ne {a b : Bytes} (ha : a.head? ≠ some slashByte)
    (hb : b.head? ≠ some slashByte) : (a ++ b).head? ≠ some slashByte := by
  cases a with
  | nil => simpa using hb
  | cons x xs => simpa using ha

/-- C5: for each call shape, the candidate main-file path probed under a
root is `root[/project][/file_name]` — each optional segment present exactly
when that input was supplied — and the probed drop-in directory is
`root[/project]/<base>.d`, `<base>` being the project name when no file
name is given and the file name when one is given.  The raw byte
constructions in the three `find_files` bodies coincide with joining those
segments with `/`, under the expected shape of the inputs (a non-empty root
with no trailing separator; a non-empty project with no leading or trailing
separator; a file name with no leading separator). -/
theorem candidate_path_construction (root project file_name : Bytes)
    (hroot_ne : root ≠ []) (hroot_last : root.getLast? ≠ some slashByte)
    (hproj_ne : project ≠ []) (hproj_head : project.head? ≠ some slashByte)
    (hproj_last : project.getLast? ≠ some slashByte)
    (hfile_head : file_name.head? ≠ some slashByte) :
    projectDropinDir project root = pathJoin root (project ++ dotD)
    ∧ fileNameDropinDir file_name root = pathJoin root (file_name ++ dotD)
    ∧ projectFileNameDropinDir project file_name root =
        pathJoin (pathJoin root project) (file_name ++ dotD)
    ∧ pathJoin (pathJoin root project) file_name =
        root ++ [slashByte] ++ project ++ [slashByte] ++ file_name
    ∧ pathJoin root file_name = root ++ [slashByte] ++ file_name := by
  have hdotD : dotD.head? ≠ some slashByte := by simp [dotD, slashByte]
  have hprojD : (project ++ dotD).head? ≠ some slashByte := head?_append_ne hproj_head hdotD
  have hfileD : (file_name ++ dotD).head? ≠ some slashByte := by
    cases file_name with
    | nil => simpa using hdotD
    | cons x xs => simpa using hfile_head
  have hjoin : pathJoin root project = root ++ [slashByte] ++ project :=
    pathJoin_eq_append hproj_head hroot_ne hroot_last
  have hjoin_ne : root ++ [slashByte] ++ project ≠ [] := by simp
  have hjoin_last : (root ++ [slashByte] ++ project).getLast? ≠ some slashByte := by
    rw [List.append_assoc, List.getLast?_append_of_ne_nil _ (by simp [hproj_ne]),
      List.getLast?_append_of_ne_nil _ hproj_ne]
    exact hproj_last
  refine ⟨?_, ?_, ?_, ?_, ?_⟩
  · rw [pathJoin_eq_append hprojD hroot_ne hroot_last]
    simp [projectDropinDir]
  · rw [pathJoin_eq_append hfileD hroot_ne hroot_last]
    simp [fileNameDropinDir]
  · rw [hjoin, pathJoin_eq_append hfileD hjoin_ne hjoin_last]
    simp [projectFileNameDropinDir]
  · rw [hjoin, pathJoin_eq_append hfile_head hjoin_ne hjoin_last]
  · exact pathJoin_eq_append hfile_head hroot_ne hroot_last

/-! ### Claims C6, C7, C9: path validation, chroot, push -/

theorem isParentDir_iff {c : Component} :
    c.isParentDir = true ↔ c = Component.parentDir := by
  cases c <;> simp [Component.isParentDir]

theorem validate_path_error_of_parentDir {path : CPath}
    (h : Component.parentDir ∈ path) : validate_path path = .error ⟨⟩ := by
  cases path with
  | nil => simp at h
  | cons c rest =>
    cases c with
    | rootDir =>
      have hany : rest.any Component.isParentDir = true := by
        rcases List.mem_cons.1 h with h' | h'
        · exact absurd h' (by simp)
        · exact List.any_eq_true.2 ⟨Component.parentDir, h', rfl⟩
      simp [validate_path, hany]
    | curDir => rfl
    | parentDir => rfl
    | normal s => rfl

theorem validate_path_ok_iff {path : CPath} :
    validate_path path = .ok () ↔
      (path.head? = some Component.rootDir ∧ Component.parentDir ∉ path) := by
  cases path with
  | nil => simp [validate_path]
  | cons c rest =>
    cases c with
    | rootDir =>
      constructor
      · intro h
        refine ⟨rfl, ?_⟩
        intro hmem
        rw [validate_path_error_of_parentDir hmem] at h
        exact absurd h (by simp)
      · rintro ⟨-, hmem⟩
        have hany : rest.any Component.isParentDir = false := by
          cases hq : rest.any Component.isParentDir with
          | false => rfl
          | true =>
            obtain ⟨x, hx, hpx⟩ := List.any_eq_true.1 hq
            rw [isParentDir_iff.1 hpx] at hx
            exact absurd (List.mem_cons_of_mem _ hx) hmem
        simp [validate_path, hany]
    | curDir => simp [validate_path]
    | parentDir => simp [validate_path]
    | normal s => simp [validate_path]

/-- C6: `validate_path` succeeds iff the path's first component is the
filesystem root and no component is a parent-directory reference;
consequently pushing a root containing `..` — onto any list, including one
produced by `chroot` — fails with `InvalidPathError` and leaves the list
unchanged, and rebasing under a base containing `..` fails the same way:
the error is raised at insertion/rebase time and the path is never
silently normalized. -/
theorem validate_path_spec :
    (∀ path : CPath, validate_path path = .ok () ↔
        (path.head? = some Component.rootDir ∧ Component.parentDir ∉ path))
    ∧ (∀ (inner : List CPath) (path : CPath), Component.parentDir ∈ path →
        SearchDirectories.push inner path = (.error ⟨⟩, inner))
    ∧ (∀ (inner : List CPath) (root : CPath), Component.parentDir ∈ root →
        SearchDirectories.chroot inner root = .error ⟨⟩) := by
  refine ⟨fun path => validate_path_ok_iff, ?_, ?_⟩
  · intro inner path h
    simp [SearchDirectories.push, validate_path_error_of_parentDir h]
  · intro inner root h
    simp [SearchDirectories.chroot, validate_path_error_of_parentDir h]

theorem filter_isNormal_of_no_parentDir {dir : CPath}
    (h : Component.parentDir ∉ dir) :
    dir.filter Component.isNormal =
      dir.filter (fun c => decide (c ≠ Component.rootDir ∧ c ≠ Component.curDir)) := by
  induction dir with
  | nil => rfl
  | cons c rest ih =>
    have hc : Component.parentDir ≠ c := by
      intro he
      exact h (by rw [← he]; exact List.mem_cons_self _ _)
    have hrest := ih (fun hm => h (List.mem_cons_of_mem _ hm))
    cases c with
    | rootDir => simpa [Component.isNormal] using hrest
    | curDir => simpa [Component.isNormal] using hrest
    | parentDir => exact absurd rfl hc
    | normal s => simp [Component.isNormal, List.filter_cons, hrest]

/-- C7: `chroot` validates the base path first, returning
`InvalidPathError` when it fails, and on success replaces every existing
root — count and relative order unchanged — by the base extended with that
root's components in order, the root-dir marker and current-directory
components dropped; for roots satisfying the list's validation invariant
the retained components are exactly the non-root, non-current-dir ones. -/
theorem chroot_spec (inner : List CPath) (root : CPath) :
    (validate_path root = .error ⟨⟩ → SearchDirectories.chroot inner root = .error ⟨⟩)
    ∧ (validate_path root = .ok () →
        SearchDirectories.chroot inner root = .ok (inner.map (rebaseRoot root))
        ∧ (inner.map (rebaseRoot root)).length = inner.length
        ∧ ∀ dir ∈ inner, validate_path dir = .ok () →
            rebaseRoot root dir =
              root ++ dir.filter
                (fun c => decide (c ≠ Component.rootDir ∧ c ≠ Component.curDir))) := by
  constructor
  · intro h
    simp [SearchDirectories.chroot, h]
  · intro h
    refine ⟨by simp [SearchDirectories.chroot, h], by simp, ?_⟩
    intro dir _ hvalid
    have hnp : Component.parentDir ∉ dir := (validate_path_ok_iff.1 hvalid).2
    rw [rebaseRoot, filter_isNormal_of_no_parentDir hnp]

/-- C9: `push` is atomic on failure — for every path failing validation
(not starting with the root component or containing a parent-directory
component, the empty path included) it returns `InvalidPathError` with the
search-directory list exactly as before the call, and the path is appended
exactly when the call returns `Ok(())`. -/
theorem push_atomic (inner : List CPath) (path : CPath) :
    (¬ (path.head? = some Component.rootDir ∧ Component.parentDir ∉ path) →
        SearchDirectories.push inner path = (.error ⟨⟩, inner))
    ∧ (∀ e, (SearchDirectories.push inner path).1 = .error e →
        (SearchDirectories.push inner path).2 = inner)
    ∧ ((SearchDirectories.push inner path).1 = .ok () →
        (SearchDirectories.push inner path).2 = inner ++ [path]) := by
  refine ⟨?_, ?_, ?_⟩
  · intro h
    have hv : validate_path path = .error ⟨⟩ := by
      cases hv : validate_path path with
      | ok u =>
        cases u
        exact absurd (validate_path_ok_iff.1 hv) h
      | error e => rfl
    simp [SearchDirectories.push, hv]
  · intro e h
    cases hv : validate_path path with
    | ok u =>
      cases u
      rw [show (SearchDirectories.push inner path).1 = .ok () by
        simp [SearchDirectories.push, hv]] at h
      exact absurd h (by simp)
    | error e' => simp [SearchDirectories.push, hv]
  · intro h
    cases hv : validate_path path with
    | ok u =>
      cases u
      simp [SearchDirectories.push, hv]
    | error e' =>
      rw [show (SearchDirectories.push inner path).1 = .error e' by
        simp [SearchDirectories.push, hv]] at h
      exact absurd h (by simp)

/-! ### Claim C8 -/

/-- C8 counterexample: with `XDG_CONFIG_HOME` set to the non-empty but
relative (hence invalid) path `a` and `HOME` unset, `with_user_directory`
appends nothing — the claim as stated requires the value to be appended to
the (here empty) list. -/
theorem with_user_directory_cex :
    SearchDirectories.with_user_directory ⟨some [Component.normal [97]], none⟩ [] ≠
        [[Component.normal [97]]]
    ∧ SearchDirectories.with_user_directory ⟨some [Component.normal [97]], none⟩ [] = [] := by
  constructor
  · decide
  · rfl

/-- C8 (amended): `with_user_directory` appends the directory named by the
environment — the value of `XDG_CONFIG_HOME` if set and non-empty, else
`HOME` joined with `.config` if `HOME` is set and non-empty — provided that
directory passes root-path validation; a resolved directory failing
validation is silently ignored, and when neither variable resolves the
search-directory list is left exactly as it was; in every case no error is
raised. -/
theorem with_user_directory_spec (env : Env) (inner : List CPath) :
    (∀ value, env.xdg_config_home = some value → value ≠ [] →
        (validate_path value = .ok () →
          SearchDirectories.with_user_directory env inner = inner ++ [value])
        ∧ (validate_path value = .error ⟨⟩ →
          SearchDirectories.with_user_directory env inner = inner))
    ∧ ((env.xdg_config_home = none ∨ env.xdg_config_home = some []) →
        ∀ value, env.home = some value → value ≠ [] →
        (validate_path (value ++ [Component.normal dotConfig]) = .ok () →
          SearchDirectories.with_user_directory env inner =
            inner ++ [value ++ [Component.normal dotConfig]])
        ∧ (validate_path (value ++ [Component.normal dotConfig]) = .error ⟨⟩ →
          SearchDirectories.with_user_directory env inner = inner))
    ∧ ((env.xdg_config_home = none ∨ env.xdg_config_home = some []) →
        (env.home = none ∨ env.home = some []) →
        SearchDirectories.with_user_directory env inner = inner) := by
  refine ⟨?_, ?_, ?_⟩
  · intro value hx hne
    have huser : userConfigDir env = some value := by
      simp [userConfigDir, hx, hne]
    constructor
    · intro hv
      simp [SearchDirectories.with_user_directory, huser, SearchDirectories.push, hv]
    · intro hv
      simp [SearchDirectories.with_user_directory, huser, SearchDirectories.push, hv]
  · intro hxdg value hh hne
    have huser : userConfigDir env = some (value ++ [Component.normal dotConfig]) := by
      rcases hxdg with h | h <;> simp [userConfigDir, h, homeConfigDir, hh, hne]
    constructor
    · intro hv
      simp [SearchDirectories.with_user_directory, huser, SearchDirectories.push, hv]
    · intro hv
      simp [SearchDirectories.with_user_directory, huser, SearchDirectories.push, hv]
  · intro hxdg hhome
    have huser : userConfigDir env = none := by
      rcases hxdg with h | h <;> rcases hhome with h' | h' <;>
        simp [userConfigDir, h, homeConfigDir, h']
    simp [SearchDirectories.with_user_directory, huser]

/-! ### Claim C10 -/

theorem processEntriesT_empty_suffix {fs : FS} {dir : Bytes} :
    ∀ (entries : List (Except IoError Bytes)) (acc : DropinMap) (tr : List Bytes),
      processEntriesT fs [] dir entries acc tr =
        processEntriesNoFilterT fs dir entries acc tr := by
  intro entries
  induction entries with
  | nil => intro acc tr; rfl
  | cons entry rest ih =>
    intro acc tr
    cases entry with
    | error e => rfl
    | ok file_name =>
      have hsf : ([] : Bytes).isSuffixOf file_name = true :=
        List.isSuffixOf_nil_left
      cases hc : mapContains acc file_name with
      | true =>
        rw [processEntriesT_skip_contains hsf hc,
          show processEntriesNoFilterT fs dir (.ok file_name :: rest) acc tr =
            processEntriesNoFilterT fs dir rest acc tr by
          simp [processEntriesNoFilterT, hc]]
        exact ih acc tr
      | false =>
        cases hopen : fs.openFile (pathJoin dir file_name) with
        | error e =>
          cases e with
          | notFound =>
            rw [processEntriesT_open_notFound hsf hc hopen,
              show processEntriesNoFilterT fs dir (.ok file_name :: rest) acc tr =
                processEntriesNoFilterT fs dir rest acc
                  (tr ++ [pathJoin dir file_name]) by
              simp [processEntriesNoFilterT, hc, hopen, IoError.isNotFound]]
            exact ih acc (tr ++ [pathJoin dir file_name])
          | other c =>
            rw [processEntriesT_open_error c hsf hc hopen]
            simp [processEntriesNoFilterT, hc, hopen, IoError.isNotFound]
        | ok u =>
          cases u
          cases hisf : fs.isFile (pathJoin dir file_name) with
          | error e =>
            rw [processEntriesT_meta_error e hsf hc hopen hisf]
            simp [processEntriesNoFilterT, hc, hopen, hisf]
          | ok b =>
            cases b with
            | true =>
              rw [processEntriesT_record hsf hc hopen hisf,
                show processEntriesNoFilterT fs dir (.ok file_name :: rest) acc tr =
                  processEntriesNoFilterT fs dir rest
                    (mapInsert file_name (pathJoin dir file_name) acc)
                    (tr ++ [pathJoin dir file_name]) by
                simp [processEntriesNoFilterT, hc, hopen, hisf]]
              exact ih _ _
            | false =>
              rw [processEntriesT_skip_nonfile hsf hc hopen hisf,
                show processEntriesNoFilterT fs dir (.ok file_name :: rest) acc tr =
                  processEntriesNoFilterT fs dir rest acc
                    (tr ++ [pathJoin dir file_name]) by
                simp [processEntriesNoFilterT, hc, hopen, hisf]]
              exact ih acc (tr ++ [pathJoin dir file_name])

theorem findDropinsRevT_empty_suffix {fs : FS} :
    ∀ (dirs : List Bytes) (acc : DropinMap) (tr : List Bytes),
      findDropinsRevT fs [] dirs acc tr = findDropinsNoFilterRevT fs dirs acc tr := by
  intro dirs
  induction dirs with
  | nil => intro acc tr; rfl
  | cons d dirs ih =>
    intro acc tr
    cases hrd : fs.readDir d with
    | error e =>
      cases e with
      | notFound =>
        rw [findDropinsRevT_dir_notFound dirs hrd,
          show findDropinsNoFilterRevT fs (d :: dirs) acc tr =
            findDropinsNoFilterRevT fs dirs acc tr by
          simp [findDropinsNoFilterRevT, hrd, IoError.isNotFound]]
        exact ih acc tr
      | other c =>
        rw [findDropinsRevT_dir_error dirs c hrd]
        simp [findDropinsNoFilterRevT, hrd, IoError.isNotFound]
    | ok entries =>
      rw [findDropinsRevT_dir_ok dirs entries hrd,
        show findDropinsNoFilterRevT fs (d :: dirs) acc tr =
          match processEntriesNoFilterT fs d entries acc tr with
          | (.ok acc', tr') => findDropinsNoFilterRevT fs dirs acc' tr'
          | (.error e, tr') => (.error e, tr') by
        simp [findDropinsNoFilterRevT, hrd],
        ← processEntriesT_empty_suffix entries acc tr]
      cases hpe : processEntriesT fs [] d entries acc tr with
      | mk r tr₁ =>
        cases r with
        | error e => rfl
        | ok acc₁ => exact ih acc₁ tr₁

/-- C10: an empty drop-in suffix acts as the identity filter — the
byte-suffix test accepts every file name when the suffix is empty, and
`find_dropins` called with the empty suffix equals the resolver with the
name filter removed entirely, considering every file in every drop-in
directory. -/
theorem empty_suffix_identity (fs : FS) (search_directories : List Bytes) :
    (∀ file_name : Bytes, ([] : Bytes).isSuffixOf file_name = true)
    ∧ find_dropins fs [] search_directories =
        find_dropins_no_filter fs search_directories := by
  refine ⟨fun file_name => List.isSuffixOf_nil_left, ?_⟩
  simp only [find_dropins, find_dropins_map, findDropinsMapT, find_dropins_no_filter]
  rw [findDropinsRevT_empty_suffix]

/-! ### Concrete fixtures and witnesses -/

/-- A small concrete filesystem for the witnesses (bytes: `a`=97, `b`=98,
`c`=99, `d`=100, `h`=104, `l`=108, `m`=109, `n`=110, `/`=47): `a/n` is
absent, `b/n` is a regular file, `c/n` errors on open, `d/n` opens but is
not a regular file, and directories `h` and `l` each list one entry `m`
that opens as a regular file. -/
def fsA : FS where
  openFile p :=
    if p = [97, 47, 110] then .error .notFound
    else if p = [98, 47, 110] then .ok ()
    else if p = [99, 47, 110] then .error (.other 5)
    else if p = [100, 47, 110] then .ok ()
    else if p = [104, 47, 109] then .ok ()
    else if p = [108, 47, 109] then .ok ()
    else .error .notFound
  isFile p :=
    if p = [98, 47, 110] then .ok true
    else if p = [100, 47, 110] then .ok false
    else if p = [104, 47, 109] then .ok true
    else if p = [108, 47, 109] then .ok true
    else .error .notFound
  readDir p :=
    if p = [104] then .ok [.ok [109]]
    else if p = [108] then .ok [.ok [109]]
    else .error .notFound

theorem find_main_file_spec_witness :
    (find_main_file fsA [110] [[98], [97]] = find_main_file fsA [110] [[98]])
    ∧ (find_main_file fsA [110] [[98], [99]] = .error (.other 5))
    ∧ (find_main_file fsA [110] [[97], [98]] = .ok (some (pathJoin [98] [110])))
    ∧ (find_main_file fsA [110] [[98], [100]] = find_main_file fsA [110] [[98]])
    ∧ (∃ lo d hi, [[97], [98]] = lo ++ d :: hi ∧
        pathJoin [98] [110] = pathJoin d [110] ∧
        fsA.openFile (pathJoin [98] [110]) = .ok () ∧
        fsA.isFile (pathJoin [98] [110]) = .ok true ∧
        ∀ d' ∈ hi,
          fsA.openFile (pathJoin d' [110]) = .error IoError.notFound ∨
          (fsA.openFile (pathJoin d' [110]) = .ok () ∧
            fsA.isFile (pathJoin d' [110]) = .ok false)) :=
  ⟨(find_main_file_spec fsA [110]).2.1 [[98]] [97] rfl,
   (find_main_file_spec fsA [110]).2.2.1 [[98]] [99] 5 rfl,
   (find_main_file_spec fsA [110]).2.2.2.1 [[97]] [98] rfl rfl,
   (find_main_file_spec fsA [110]).2.2.2.2.1 [[98]] [100] rfl rfl,
   (find_main_file_spec fsA [110]).2.2.2.2.2 [[97], [98]] (pathJoin [98] [110]) rfl⟩

theorem find_dropins_shadowing_witness :
    (∀ m, find_dropins_map fsA [] [[108], [104]] = .ok m →
        mapContains m [109] = true ∧
        mapLookup m [109] = mapLookup [([109], [104, 47, 109])] [109])
    ∧ (∀ entries, fsA.readDir [108] = .ok entries →
        ∀ p ∈ (processEntriesT fsA [] [108] entries [([109], [104, 47, 109])]
            [[104, 47, 109]]).2,
          p ∈ [[104, 47, 109]] ∨ ∃ name, p = pathJoin [108] name ∧ name ≠ [109]) :=
  find_dropins_shadowing fsA [] [[108], [104]] [[104]] [] [108] [109]
    [([109], [104, 47, 109])] [[104, 47, 109]] rfl rfl rfl

theorem find_dropins_sorted_witness :
    List.Pairwise keyLt [([109], [104, 47, 109])] ∧
      find_dropins fsA [] [[108], [104]] =
        .ok (intoValues [([109], [104, 47, 109])]) :=
  find_dropins_sorted fsA [] [[108], [104]] [([109], [104, 47, 109])] rfl

theorem find_files_composition_witness :
    (∃ main_file dropins,
        find_main_file fsA [110] [[97], [98]] = .ok main_file ∧
        find_dropins fsA [] ([[97], [98]].map (fileNameDropinDir [110])) = .ok dropins ∧
        [[98, 47, 110]] = main_file.toList ++ dropins)
    ∧ (∃ main_file,
        find_main_file fsA [110] [[97], [98]] = .ok main_file ∧
        [[98, 47, 110]] = main_file.toList)
    ∧ (∃ main_file dropins,
        find_main_file fsA [110] ([[97]].map (fun path => pathJoin path [112])) =
          .ok main_file ∧
        find_dropins fsA [] ([[97]].map (projectFileNameDropinDir [112] [110])) =
          .ok dropins ∧
        ([] : List Bytes) = main_file.toList ++ dropins) :=
  ⟨(find_files_composition fsA [[97], [98]]).2.1 [110] [] [[98, 47, 110]] rfl,
   (find_files_composition fsA [[97], [98]]).2.2.1 [110] [[98, 47, 110]] rfl,
   (find_files_composition fsA [[97]]).2.2.2 [112] [110] [] [] rfl⟩

theorem candidate_path_construction_witness :
    projectDropinDir [112] [101] = pathJoin [101] ([112] ++ dotD)
    ∧ fileNameDropinDir [110] [101] = pathJoin [101] ([110] ++ dotD)
    ∧ projectFileNameDropinDir [112] [110] [101] =
        pathJoin (pathJoin [101] [112]) ([110] ++ dotD)
    ∧ pathJoin (pathJoin [101] [112]) [110] =
        [101] ++ [slashByte] ++ [112] ++ [slashByte] ++ [110]
    ∧ pathJoin [101] [110] = [101] ++ [slashByte] ++ [110] :=
  candidate_path_construction [101] [112] [110] (by decide) (by decide) (by decide)
    (by decide) (by decide) (by decide)

theorem validate_path_spec_witness :
    (validate_path [Component.rootDir, Component.parentDir] = .ok () ↔
        ([Component.rootDir, Component.parentDir].head? = some Component.rootDir ∧
          Component.parentDir ∉ [Component.rootDir, Component.parentDir]))
    ∧ SearchDirectories.push [] [Component.rootDir, Component.parentDir] = (.error ⟨⟩, [])
    ∧ SearchDirectories.chroot [] [Component.rootDir, Component.parentDir] = .error ⟨⟩ :=
  ⟨validate_path_spec.1 [Component.rootDir, Component.parentDir],
   validate_path_spec.2.1 [] [Component.rootDir, Component.parentDir] (by simp),
   validate_path_spec.2.2 [] [Component.rootDir, Component.parentDir] (by simp)⟩

theorem chroot_spec_witness :
    SearchDirectories.chroot [[Component.rootDir, Component.curDir, Component.normal [97]]]
        [Component.rootDir, Component.normal [114]] =
      .ok ([[Component.rootDir, Component.curDir, Component.normal [97]]].map
        (rebaseRoot [Component.rootDir, Component.normal [114]]))
    ∧ ([[Component.rootDir, Component.curDir, Component.normal [97]]].map
        (rebaseRoot [Component.rootDir, Component.normal [114]])).length =
      [[Component.rootDir, Component.curDir, Component.normal [97]]].length
    ∧ ∀ dir ∈ [[Component.rootDir, Component.curDir, Component.normal [97]]],
        validate_path dir = .ok () →
        rebaseRoot [Component.rootDir, Component.normal [114]] dir =
          [Component.rootDir, Component.normal [114]] ++ dir.filter
            (fun c => decide (c ≠ Component.rootDir ∧ c ≠ Component.curDir)) :=
  (chroot_spec [[Component.rootDir, Component.curDir, Component.normal [97]]]
    [Component.rootDir, Component.normal [114]]).2 rfl

theorem with_user_directory_spec_witness :
    SearchDirectories.with_user_directory
        ⟨some [Component.rootDir, Component.normal [120]], none⟩ [] =
      [] ++ [[Component.rootDir, Component.normal [120]]]
    ∧ SearchDirectories.with_user_directory ⟨none, none⟩ [] = [] :=
  ⟨((with_user_directory_spec ⟨some [Component.rootDir, Component.normal [120]], none⟩ []).1
      [Component.rootDir, Component.normal [120]] rfl (by decide)).1 rfl,
   (with_user_directory_spec ⟨none, none⟩ []).2.2 (Or.inl rfl) (Or.inl rfl)⟩

theorem push_atomic_witness :
    SearchDirectories.push [] [Component.curDir] = (.error ⟨⟩, [])
    ∧ (SearchDirectories.push [] [Component.rootDir]).2 = [] ++ [[Component.rootDir]] :=
  ⟨(push_atomic [] [Component.curDir]).1 (by decide),
   (push_atomic [] [Component.rootDir]).2.2 rfl⟩
